import Mathlib

/-!
Verification of the katana media-repository stack.

This file gives a shallow embedding, in Lean 4, of the parts of the katana
source relevant to the checked claims:

* the association-map discipline of the base CRUD repository
  (repo/media/media.go: addItem / removeItem / add / Add / Remove /
  RemovePath / Scan),
* the index decorator's save protocol and its load/save round trip
  (repo/index.go),
* the mux decorator (repo/mux/mux.go: makeHash, Remove, RemovePath, Remux),
* the format registry (media/format.go: FindUnsupportedFormat) and the
  repository's detectAndCheckFormat,
* the file-analysis metadata source (repo/media/meta/source.go: FromFile),
* the reference-counted keyed mutex (internal/sync/kmutex.go).

Go maps are modelled as association lists looked up by first match (Go maps
never hold a duplicate key, and the insert/erase operations below preserve
that discipline).  Filesystem state is modelled as an association list from
paths to file contents.  External collaborators (crypto/md5, the mimetype
detector, the FFmpeg-backed mux library, JSON marshalling) are modelled as
deterministic stand-in functions, documented at each definition.
-/

/-- Association-list lookup, first match wins (models Go map read). -/
def lookupA {α β : Type} [DecidableEq α] : List (α × β) → α → Option β
  | [], _ => none
  | e :: t, k => if e.1 = k then some e.2 else lookupA t k

/-- Association-list insert-or-overwrite (models Go map assignment). -/
def upsertA {α β : Type} [DecidableEq α] : List (α × β) → α → β → List (α × β)
  | [], k, v => [(k, v)]
  | e :: t, k, v => if e.1 = k then (k, v) :: t else e :: upsertA t k v

/-- Association-list key removal (models Go map delete). -/
def eraseA {α β : Type} [DecidableEq α] : List (α × β) → α → List (α × β)
  | [], _ => []
  | e :: t, k => if e.1 = k then eraseA t k else e :: eraseA t k

theorem lookupA_eq_none_iff {α β : Type} [DecidableEq α] (l : List (α × β)) (k : α) :
    lookupA l k = none ↔ ∀ e ∈ l, e.1 ≠ k := by
  induction l with
  | nil => simp [lookupA]
  | cons e t ih =>
    by_cases h : e.1 = k <;> simp [lookupA, h, ih]

theorem upsertA_of_lookupA_none {α β : Type} [DecidableEq α] {l : List (α × β)} {k : α}
    (v : β) (h : lookupA l k = none) : upsertA l k v = l ++ [(k, v)] := by
  induction l with
  | nil => simp [upsertA]
  | cons e t ih =>
    by_cases he : e.1 = k
    · simp [lookupA, he] at h
    · simp [lookupA, he] at h
      simp [upsertA, he, ih h]

theorem eraseA_of_lookupA_none {α β : Type} [DecidableEq α] {l : List (α × β)} {k : α}
    (h : lookupA l k = none) : eraseA l k = l := by
  induction l with
  | nil => rfl
  | cons e t ih =>
    by_cases he : e.1 = k
    · simp [lookupA, he] at h
    · simp [lookupA, he] at h
      simp [eraseA, he, ih h]

theorem eraseA_append_singleton {α β : Type} [DecidableEq α] {l : List (α × β)} {k : α}
    (v : β) (h : lookupA l k = none) : eraseA (l ++ [(k, v)]) k = l := by
  induction l with
  | nil => simp [eraseA]
  | cons e t ih =>
    by_cases he : e.1 = k
    · simp [lookupA, he] at h
    · simp [lookupA, he] at h
      simp [eraseA, he, ih h]

theorem lookupA_upsertA_self {α β : Type} [DecidableEq α] (l : List (α × β)) (k : α) (v : β) :
    lookupA (upsertA l k v) k = some v := by
  induction l with
  | nil => simp [upsertA, lookupA]
  | cons e t ih =>
    by_cases he : e.1 = k <;> simp [upsertA, lookupA, he, ih]

theorem lookupA_upsertA_ne {α β : Type} [DecidableEq α] (l : List (α × β)) {k k2 : α} (v : β)
    (h : k ≠ k2) : lookupA (upsertA l k v) k2 = lookupA l k2 := by
  induction l with
  | nil => simp [upsertA, lookupA, h]
  | cons e t ih =>
    by_cases he : e.1 = k
    · simp [upsertA, lookupA, he, h]
    · by_cases he2 : e.1 = k2 <;> simp [upsertA, lookupA, he, he2, ih, Ne.symm h]

/-- Character class of the id patterns: `[a-z0-9-_]`
(media.go / repo: idPattern, idCharExclusivePattern). -/
def isIDChar (c : Char) : Bool :=
  (('a' ≤ c ∧ c ≤ 'z') ∨ ('0' ≤ c ∧ c ≤ '9') ∨ c = '-' ∨ c = '_' : Bool)

/-- media.ValidID / repo.ValidID: the whole string matches the regular
expression anchored pattern of one or more id characters. -/
def validID (s : String) : Bool :=
  decide (s.data ≠ []) && s.data.all isIDChar

/-- media.SanitizeID: replace spaces and dots with dashes
(commonDelimiterReplacer), lower-case, then drop every character outside
the id class.  Go's Unicode lower-casing agrees with Char.toLower on the
ASCII inputs the repository feeds it. -/
def sanitizeID (s : String) : String :=
  String.mk (((s.data.map fun c => if c = ' ' ∨ c = '.' then '-' else c).map
    Char.toLower).filter isIDChar)

/-- strings.SplitN(mime, "/", 2)[0]: the text before the first slash, the
whole string when no slash occurs (crudRepository.checkMime / checkFormat). -/
def mimeGroup (mime : String) : String :=
  String.mk (mime.data.takeWhile (fun c => c ≠ '/'))

/-- allowedMimeGroups membership test used by checkMime / checkFormat. -/
def checkMimeOk (mime : String) : Bool :=
  (mimeGroup mime = "video" ∨ mimeGroup mime = "audio" : Bool)

/-- A Go filesystem path split into components: the `abs` flag records a
leading separator, `segs` the slash-separated components.  All repository
paths in the source are produced by filepath.Abs / filepath.Join and are
clean (no empty, `.` or `..` components occur in them). -/
structure GoPath where
  abs : Bool
  segs : List String
deriving DecidableEq

/-- Number of leading components two paths share (helper for filepath.Rel). -/
def commonLen : List String → List String → Nat
  | a :: as, b :: bs => if a = b then commonLen as bs + 1 else 0
  | _, _ => 0

/-- Component-wise test that `r` is a leading run of `p`. -/
def startsWithSegs : List String → List String → Bool
  | [], _ => true
  | _, [] => false
  | a :: as, b :: bs => a = b && startsWithSegs as bs

/-- filepath.Rel(base, targ) on clean paths: it errors only when one path is
absolute and the other relative; otherwise it strips the shared leading
components and backs out of the remainder of `base` with `..` entries.
The empty result list stands for Go's ".". -/
def filepathRel (base targ : GoPath) : Option (List String) :=
  if base.abs = targ.abs then
    some (List.replicate (base.segs.length - commonLen base.segs targ.segs) ".."
      ++ targ.segs.drop (commonLen base.segs targ.segs))
  else none

/-- path.Clean on a component list: drop `.`, resolve `..` (at the root of an
absolute path a `..` disappears, in a relative path it accumulates). -/
def cleanSegs (abs : Bool) (l : List String) : List String :=
  l.foldl
    (fun acc s =>
      if s = "." then acc
      else if s = ".." then
        if acc = [] then (if abs then [] else [".."])
        else if acc.getLast? = some ".." then acc ++ [".."]
        else acc.dropLast
      else acc ++ [s])
    []

/-- filepath.Join(base, rel) followed by the Clean Join performs. -/
def joinPath (base : GoPath) (rel : List String) : GoPath :=
  ⟨base.abs, cleanSegs base.abs (base.segs ++ rel)⟩

/-- A path component is clean when it is neither `.` nor `..`. -/
def cleanSeg (s : String) : Bool :=
  (s ≠ "." ∧ s ≠ ".." : Bool)

theorem commonLen_of_startsWith {r p : List String} (h : startsWithSegs r p = true) :
    commonLen r p = r.length := by
  induction r generalizing p with
  | nil => cases p <;> simp [commonLen]
  | cons a as ih =>
    cases p with
    | nil => simp [startsWithSegs] at h
    | cons b bs =>
      simp [startsWithSegs] at h
      simp [commonLen, h.1, ih h.2]

theorem startsWithSegs_append_drop {r p : List String} (h : startsWithSegs r p = true) :
    r ++ p.drop r.length = p := by
  induction r generalizing p with
  | nil => simp
  | cons a as ih =>
    cases p with
    | nil => simp [startsWithSegs] at h
    | cons b bs =>
      simp [startsWithSegs] at h
      simp [h.1, ih h.2]

theorem cleanSegs_of_clean (abs : Bool) (l : List String)
    (h : ∀ s ∈ l, cleanSeg s = true) : cleanSegs abs l = l := by
  have main : ∀ (l2 : List String) (acc : List String),
      (∀ s ∈ l2, cleanSeg s = true) → (∀ s ∈ acc, cleanSeg s = true) →
      l2.foldl
        (fun acc s =>
          if s = "." then acc
          else if s = ".." then
            if acc = [] then (if abs then [] else [".."])
            else if acc.getLast? = some ".." then acc ++ [".."]
            else acc.dropLast
          else acc ++ [s])
        acc = acc ++ l2 := by
    intro l2
    induction l2 with
    | nil => intro acc _ _; simp
    | cons a t ih =>
      intro acc hl hacc
      have ha : cleanSeg a = true := hl a (by simp)
      simp only [cleanSeg, decide_eq_true_eq] at ha
      have step : (if a = "." then acc
          else if a = ".." then
            if acc = [] then (if abs then [] else [".."])
            else if acc.getLast? = some ".." then acc ++ [".."]
            else acc.dropLast
          else acc ++ [a]) = acc ++ [a] := by
        simp [ha.1, ha.2]
      simp only [List.foldl_cons, step]
      rw [ih (acc ++ [a]) (fun s hs => hl s (by simp [hs]))]
      · simp
      · intro s hs
        rcases List.mem_append.mp hs with h1 | h1
        · exact hacc s h1
        · simp at h1; subst h1; exact (by simp [cleanSeg, ha.1, ha.2])
  exact main l [] h (by simp)

/-- On a path under the root, filepath.Rel is a plain prefix strip. -/
theorem filepathRel_under_root {root p : GoPath}
    (habs : root.abs = p.abs) (hpre : startsWithSegs root.segs p.segs = true) :
    filepathRel root p = some (p.segs.drop root.segs.length) := by
  simp [filepathRel, habs, commonLen_of_startsWith hpre]

/-- Joining the root with the relative form of a clean under-root path
rehydrates exactly the original absolute path (save/load round trip core). -/
theorem joinPath_rel_roundtrip {root p : GoPath}
    (habs : root.abs = p.abs) (hpre : startsWithSegs root.segs p.segs = true)
    (hclean : ∀ s ∈ p.segs, cleanSeg s = true)
    (hcleanr : ∀ s ∈ root.segs, cleanSeg s = true) :
    joinPath root (p.segs.drop root.segs.length) = p := by
  have hall : ∀ s ∈ root.segs ++ p.segs.drop root.segs.length, cleanSeg s = true := by
    intro s hs
    rcases List.mem_append.mp hs with h1 | h1
    · exact hcleanr s h1
    · exact hclean s (List.mem_of_mem_drop h1)
  cases p with
  | mk pabs psegs =>
    simp only [joinPath, cleanSegs_of_clean _ _ hall]
    simp at habs hpre ⊢
    exact ⟨habs, startsWithSegs_append_drop hpre⟩

/-- Media of the base CRUD repository (repo/media/media.go BasicMedia):
id, absolute path and MIME type.  The optional metadata field plays no role
in any checked claim and is elided. -/
structure Media where
  id : String
  path : GoPath
  mime : String
deriving DecidableEq

/-- Errors of the repository error taxonomy reachable from the embedded
operations (repo errors.go). -/
inductive RepoErr where
  | invalidID
  | invalidMediaPath
  | invalidMediaType
  | duplicateID
  | duplicatePath
deriving DecidableEq

/-- State of crudRepository: the two indices that "should be kept in sync"
(media.go).  Keys of itemsByPath are root-relative component lists. -/
structure RepoState where
  itemsById : List (String × Media)
  itemsByPath : List (List String × Media)
deriving DecidableEq

/-- Freshly created base repository (NewRepository): both indices empty. -/
def emptyRepo : RepoState := ⟨[], []⟩

/-- crudRepository.addItem: unconditional insert into both indices. -/
def addItem (s : RepoState) (id : String) (relPath : List String) (m : Media) : RepoState :=
  ⟨upsertA s.itemsById id m, upsertA s.itemsByPath relPath m⟩

/-- crudRepository.removeItem: delete from both indices; reports whether the
id-index length actually dropped by one. -/
def removeItem (s : RepoState) (id : String) (relPath : List String) : RepoState × Bool :=
  let desiredLen : Int := (s.itemsById.length : Int) - 1
  let s2 : RepoState := ⟨eraseA s.itemsById id, eraseA s.itemsByPath relPath⟩
  (s2, ((s2.itemsById.length : Int) = desiredLen : Bool))

/-- crudRepository.add (media.go, the internal helper): relativize the path,
check both duplicate conditions, insert. -/
def repoAdd (root : GoPath) (s : RepoState) (id : String) (path : GoPath) (m : Media) :
    Except RepoErr RepoState :=
  match filepathRel root path with
  | none => .error .invalidMediaPath
  | some relPath =>
    if (lookupA s.itemsById id).isSome then .error .duplicateID
    else if (lookupA s.itemsByPath relPath).isSome then .error .duplicatePath
    else .ok (addItem s id relPath m)

/-- crudRepository.Add: id validity and MIME-group check, then add. -/
def repoAddM (root : GoPath) (s : RepoState) (m : Media) : Except RepoErr RepoState :=
  if ¬ validID m.id then .error .invalidID
  else if ¬ checkMimeOk m.mime then .error .invalidMediaType
  else repoAdd root s m.id m.path m

/-- crudRepository.Remove: always returns a nil error; removal happens only
when the media's path can be relativized. -/
def repoRemove (root : GoPath) (s : RepoState) (m : Media) : RepoState :=
  match filepathRel root m.path with
  | none => s
  | some relPath => (removeItem s m.id relPath).1

/-- crudRepository.RemovePath: relativize, look the path index up, and remove
the found media; a nil error in every branch. -/
def repoRemovePath (root : GoPath) (s : RepoState) (p : GoPath) : RepoState :=
  match filepathRel root p with
  | none => s
  | some relPath =>
    match lookupA s.itemsByPath relPath with
    | none => s
    | some m => (removeItem s m.id relPath).1

/-- crudRepository.Items: the values of the id index (maps.Values). -/
def repoItems (s : RepoState) : List Media :=
  s.itemsById.map (fun e => e.2)

/-- One regular, non-dot file met by the Scan walk: its absolute path, its
base name (fs.DirEntry Name) and the MIME type the external mimetype
library detects from its content. -/
structure ScanEntry where
  path : GoPath
  name : String
  mime : String
deriving DecidableEq

/-- Leading-dot test on the raw bytes (strings.HasPrefix(name, ".")). -/
def startsWithDot (s : String) : Bool :=
  match s.data with
  | c :: _ => c = '.'
  | [] => false

/-- The per-file body of crudRepository.Scan's filepath.WalkDir callback:
skip dot names, skip paths already indexed, skip invalid MIME groups
(warn-and-continue branch), otherwise sanitize the base name into an id and
addItem — with no duplicate-id check.  Metadata resolution (FromFile) is
elided; its failure aborts the walk and is irrelevant to the state claims. -/
def scanStep (root : GoPath) (s : RepoState) (e : ScanEntry) : RepoState :=
  if startsWithDot e.name then s
  else
    match filepathRel root e.path with
    | none => s
    | some relPath =>
      if (lookupA s.itemsByPath relPath).isSome then s
      else if ¬ checkMimeOk e.mime then s
      else
        let id := sanitizeID e.name
        addItem s id relPath ⟨id, e.path, e.mime⟩

/-- crudRepository.Scan over the list of regular files the walk discovers,
in walk order. -/
def repoScan (root : GoPath) (s : RepoState) (entries : List ScanEntry) : RepoState :=
  entries.foldl (scanStep root) s

/-- Root directory of the collision scenario: /r. -/
def scanRoot : GoPath := ⟨true, ["r"]⟩

/-- First discovered file of the collision scenario: /r/a/test.mkv. -/
def scanEntryA : ScanEntry := ⟨⟨true, ["r", "a", "test.mkv"]⟩, "test.mkv", "video/x-matroska"⟩

/-- Second discovered file of the collision scenario: /r/b/test.mkv,
a distinct path whose base name sanitizes to the same id. -/
def scanEntryB : ScanEntry := ⟨⟨true, ["r", "b", "test.mkv"]⟩, "test.mkv", "video/x-matroska"⟩

/-- Media the scan builds for the first file. -/
def scanMediaA : Media := ⟨"test-mkv", ⟨true, ["r", "a", "test.mkv"]⟩, "video/x-matroska"⟩

/-- Media the scan builds for the second file. -/
def scanMediaB : Media := ⟨"test-mkv", ⟨true, ["r", "b", "test.mkv"]⟩, "video/x-matroska"⟩

/-- C1: the claim states that after every sequence of public operations the
two indices hold exactly the same set of media with equal sizes, in
particular when Scan meets two distinct paths whose base names sanitize to
the same id.  The code violates this: Scan inserts via addItem without any
duplicate-id check, so scanning /r/a/test.mkv and /r/b/test.mkv (both
video, both sanitizing to id test-mkv) leaves items_by_id with one entry
but items_by_path with two, and items_by_path still maps a/test.mkv to the
first media while items_by_id maps test-mkv to the second. -/
theorem scan_collision_breaks_index_sync :
    (repoScan scanRoot emptyRepo [scanEntryA, scanEntryB]).itemsById.length = 1 ∧
    (repoScan scanRoot emptyRepo [scanEntryA, scanEntryB]).itemsByPath.length = 2 ∧
    lookupA (repoScan scanRoot emptyRepo [scanEntryA, scanEntryB]).itemsByPath
      ["a", "test.mkv"] = some scanMediaA ∧
    lookupA (repoScan scanRoot emptyRepo [scanEntryA, scanEntryB]).itemsById
      "test-mkv" = some scanMediaB ∧
    scanMediaA ≠ scanMediaB := by
  refine ⟨by decide, by decide, by decide, by decide, by decide⟩

/-- C9: whenever crudRepository.Add succeeds, the immediately following
crudRepository.Remove of the same media returns the repository to exactly
the state (hence the Items set) it held before the Add; Remove itself
always reports a nil error. -/
theorem add_remove_roundtrip (root : GoPath) (s : RepoState) (m : Media) (s2 : RepoState)
    (h : repoAddM root s m = .ok s2) : repoRemove root s2 m = s := by
  by_cases hv : validID m.id
  · by_cases hm : checkMimeOk m.mime
    · simp [repoAddM, hv, hm] at h
      unfold repoAdd at h
      cases hrel : filepathRel root m.path with
      | none => rw [hrel] at h; simp at h
      | some relPath =>
        rw [hrel] at h
        dsimp only at h
        by_cases hid : (lookupA s.itemsById m.id).isSome
        · rw [if_pos hid] at h; simp at h
        · by_cases hpath : (lookupA s.itemsByPath relPath).isSome
          · rw [if_neg hid, if_pos hpath] at h; simp at h
          · rw [if_neg hid, if_neg hpath] at h
            have hidn : lookupA s.itemsById m.id = none :=
              Option.not_isSome_iff_eq_none.mp hid
            have hpathn : lookupA s.itemsByPath relPath = none :=
              Option.not_isSome_iff_eq_none.mp hpath
            have hs2 : s2 = addItem s m.id relPath m := by
              cases h; rfl
            subst hs2
            simp only [repoRemove, hrel, removeItem, addItem]
            rw [upsertA_of_lookupA_none _ hidn, upsertA_of_lookupA_none _ hpathn,
              eraseA_append_singleton _ hidn, eraseA_append_singleton _ hpathn]
    · rw [repoAddM, if_neg (by simp [hv]), if_pos (by simp [hm])] at h; simp at h
  · rw [repoAddM, if_pos (by simp [hv])] at h; simp at h

/-- Witness for C9 at a concrete repository: adding /r/bocchi.mkv to the
empty repository succeeds and removing it again restores the empty state. -/
theorem add_remove_roundtrip_witness :
    repoRemove ⟨true, ["r"]⟩
      (RepoState.mk [("bocchi-mkv", ⟨"bocchi-mkv", ⟨true, ["r", "bocchi.mkv"]⟩, "video/x-matroska"⟩)]
        [(["bocchi.mkv"], ⟨"bocchi-mkv", ⟨true, ["r", "bocchi.mkv"]⟩, "video/x-matroska"⟩)])
      ⟨"bocchi-mkv", ⟨true, ["r", "bocchi.mkv"]⟩, "video/x-matroska"⟩ = emptyRepo :=
  add_remove_roundtrip ⟨true, ["r"]⟩ emptyRepo
    ⟨"bocchi-mkv", ⟨true, ["r", "bocchi.mkv"]⟩, "video/x-matroska"⟩ _ rfl

/-- Filesystem contents: an association list from paths to file bytes
(modelled as strings). -/
def FS : Type := List (GoPath × String)

/-- The backup path the index decorator derives on construction
(NewIndexedRepository): the index file's directory joined with its base
name plus the literal suffix .old. -/
def indexOldPath (ixPath : GoPath) : GoPath :=
  ⟨ixPath.abs, ixPath.segs.dropLast ++ [((ixPath.segs.getLast?).getD "") ++ ".old"]⟩

/-- A persisted index item (index file entry, media.BasicMedia with the
path relativized): id, root-relative path, MIME type. -/
structure IndexedItem where
  id : String
  relPath : List String
  mime : String
deriving DecidableEq

/-- Stand-in for json.Marshal of the index document: a deterministic
injective serialization of the persisted records. -/
def marshalIndex (items : List IndexedItem) : String :=
  String.intercalate ";"
    (items.map fun it => it.id ++ "," ++ String.intercalate "/" it.relPath ++ "," ++ it.mime)

/-- The relativization loop at the top of indexedRepository.save: convert
every snapshotted item's path to repository-relative, aborting on a
filepath.Rel failure. -/
def persistedOf (root : GoPath) : List Media → Option (List IndexedItem)
  | [] => some []
  | m :: t =>
    match filepathRel root m.path with
    | none => none
    | some r =>
      match persistedOf root t with
      | none => none
      | some rest => some (⟨m.id, r, m.mime⟩ :: rest)

/-- Persisted form of a repository snapshot (save steps 1 and 2). -/
def persistedItems (root : GoPath) (s : RepoState) : Option (List IndexedItem) :=
  persistedOf root (repoItems s)

/-- indexedRepository.copy: read the current index file and, when it exists,
write its bytes to the .old path; a missing index file is a no-op. -/
def copyOldFS (ixPath : GoPath) (fs : FS) : FS :=
  match lookupA fs ixPath with
  | none => fs
  | some bytes => upsertA fs (indexOldPath ixPath) bytes

/-- indexedRepository.save, filesystem part: after marshalling, copy the
current index file to the .old path and only then write the new bytes to
the index path.  Directory creation (os.MkdirAll) has no observable effect
in the path-to-bytes filesystem model. -/
def indexSave (root : GoPath) (s : RepoState) (ixPath : GoPath) (fs : FS) : Option FS :=
  match persistedItems root s with
  | none => none
  | some items => some (upsertA (copyOldFS ixPath fs) ixPath (marshalIndex items))

theorem indexOldPath_ne (p : GoPath) : indexOldPath p ≠ p := by
  intro hcontra
  have hsegs : (indexOldPath p).segs = p.segs := congrArg GoPath.segs hcontra
  simp only [indexOldPath] at hsegs
  rcases List.eq_nil_or_concat p.segs with hnil | ⟨l2, a, hcat⟩
  · rw [hnil] at hsegs
    simp at hsegs
  · rw [hcat] at hsegs
    simp [List.dropLast_concat, List.getLast?_concat] at hsegs
    have hlen := congrArg String.length hsegs
    rw [String.length_append] at hlen
    have hfour : ".old".length = 4 := rfl
    omega

/-- C5: a successful save of the index decorator copies the previously
committed index bytes to the .old path before writing the newly marshalled
bytes to the index path, so afterwards the .old file holds exactly the
prior version and the index path the new one. -/
theorem index_save_backs_up_previous (root : GoPath) (s : RepoState) (ixPath : GoPath)
    (fs fs2 : FS) (old : String)
    (hsave : indexSave root s ixPath fs = some fs2)
    (hold : lookupA fs ixPath = some old) :
    lookupA fs2 (indexOldPath ixPath) = some old ∧
    ∃ items, persistedItems root s = some items ∧
      lookupA fs2 ixPath = some (marshalIndex items) := by
  unfold indexSave at hsave
  cases hpi : persistedItems root s with
  | none => rw [hpi] at hsave; simp at hsave
  | some items =>
    rw [hpi] at hsave
    dsimp only at hsave
    have hfs2 : fs2 = upsertA (copyOldFS ixPath fs) ixPath (marshalIndex items) :=
      (Option.some.inj hsave).symm
    subst hfs2
    refine ⟨?_, items, rfl, lookupA_upsertA_self _ _ _⟩
    rw [lookupA_upsertA_ne _ _ (indexOldPath_ne ixPath).symm]
    unfold copyOldFS
    rw [hold]
    exact lookupA_upsertA_self _ _ _

/-- Witness for C5: saving a one-item repository over an existing index file
at /x/index.json backs the old bytes up at /x/index.json.old and commits
the new serialization. -/
theorem index_save_backs_up_previous_witness :
    lookupA
      ((upsertA (copyOldFS ⟨true, ["x", "index.json"]⟩ [(⟨true, ["x", "index.json"]⟩, "OLDBYTES")])
        ⟨true, ["x", "index.json"]⟩
        (marshalIndex [⟨"bocchi-mkv", ["bocchi.mkv"], "video/x-matroska"⟩])) : FS)
      (indexOldPath ⟨true, ["x", "index.json"]⟩) = some "OLDBYTES" :=
  (index_save_backs_up_previous ⟨true, ["r"]⟩
    (RepoState.mk [("bocchi-mkv", ⟨"bocchi-mkv", ⟨true, ["r", "bocchi.mkv"]⟩, "video/x-matroska"⟩)]
      [(["bocchi.mkv"], ⟨"bocchi-mkv", ⟨true, ["r", "bocchi.mkv"]⟩, "video/x-matroska"⟩)])
    ⟨true, ["x", "index.json"]⟩
    [(⟨true, ["x", "index.json"]⟩, "OLDBYTES")] _ "OLDBYTES" rfl rfl).1

/-- indexedRepository.load, after json.Unmarshal recovered the persisted
records (the unmarshal of the marshalIndex serialization is the identity
on the records): rehydrate each relative path against the wrapped
repository's root and Add the item, aborting on the first Add error. -/
def loadItems (root : GoPath) (s : RepoState) : List IndexedItem → Except RepoErr RepoState
  | [] => .ok s
  | it :: t =>
    match repoAddM root s ⟨it.id, joinPath root it.relPath, it.mime⟩ with
    | .error e => .error e
    | .ok s2 => loadItems root s2 t

/-- An id-index entry is good when its key is the media's id, the id is
valid, the MIME group is allowed and the media's path is a clean path under
the repository root (spec invariant I2). -/
def goodMediaEntry (root : GoPath) (e : String × Media) : Prop :=
  e.2.id = e.1 ∧ validID e.1 = true ∧ checkMimeOk e.2.mime = true ∧
  e.2.path.abs = root.abs ∧ startsWithSegs root.segs e.2.path.segs = true ∧
  (∀ seg ∈ e.2.path.segs, cleanSeg seg = true)

/-- Well-formed base-repository state for the index round trip: every entry
good, ids pairwise distinct, paths pairwise distinct, root clean. -/
def GoodState (root : GoPath) (s : RepoState) : Prop :=
  (∀ e ∈ s.itemsById, goodMediaEntry root e) ∧
  (s.itemsById.map (fun e => e.1)).Nodup ∧
  (s.itemsById.map (fun e => e.2.path)).Nodup ∧
  (∀ seg ∈ root.segs, cleanSeg seg = true)

theorem lookupA_append_none {α β : Type} [DecidableEq α] {l1 l2 : List (α × β)} {k : α}
    (h1 : lookupA l1 k = none) (h2 : lookupA l2 k = none) :
    lookupA (l1 ++ l2) k = none := by
  induction l1 with
  | nil => simpa using h2
  | cons e t ih =>
    by_cases he : e.1 = k
    · simp [lookupA, he] at h1
    · simp [lookupA, he] at h1 ⊢
      exact ih h1

theorem persistedOf_of_good (root : GoPath) (l : List (String × Media))
    (hg : ∀ e ∈ l, goodMediaEntry root e) :
    persistedOf root (l.map (fun e => e.2)) =
      some (l.map fun e => ⟨e.2.id, e.2.path.segs.drop root.segs.length, e.2.mime⟩) := by
  induction l with
  | nil => rfl
  | cons e t ih =>
    have he := hg e (by simp)
    have hrel : filepathRel root e.2.path = some (e.2.path.segs.drop root.segs.length) :=
      filepathRel_under_root he.2.2.2.1.symm he.2.2.2.2.1
    simp only [List.map_cons, persistedOf, hrel, ih (fun x hx => hg x (by simp [hx]))]

theorem loadItems_append_ok (root : GoPath) (pending : List (String × Media))
    (acc : RepoState)
    (hpend : ∀ e ∈ pending, goodMediaEntry root e)
    (hrootclean : ∀ seg ∈ root.segs, cleanSeg seg = true)
    (hidnodup : (pending.map (fun e => e.1)).Nodup)
    (hpathnodup : (pending.map (fun e => e.2.path)).Nodup)
    (haccid : ∀ e ∈ pending, lookupA acc.itemsById e.1 = none)
    (haccpath : ∀ e ∈ pending,
      lookupA acc.itemsByPath (e.2.path.segs.drop root.segs.length) = none) :
    loadItems root acc
      (pending.map fun e => ⟨e.2.id, e.2.path.segs.drop root.segs.length, e.2.mime⟩) =
    .ok ⟨acc.itemsById ++ pending,
      acc.itemsByPath ++ pending.map fun e => (e.2.path.segs.drop root.segs.length, e.2)⟩ := by
  induction pending generalizing acc with
  | nil =>
    simp only [List.map_nil, loadItems, List.append_nil]
  | cons e t ih =>
    have he := hpend e (by simp)
    obtain ⟨hid, hvalid, hmime, habs, hunder, hclean⟩ := he
    have hjoin : joinPath root (e.2.path.segs.drop root.segs.length) = e.2.path :=
      joinPath_rel_roundtrip habs.symm hunder hclean hrootclean
    have hrel : filepathRel root e.2.path = some (e.2.path.segs.drop root.segs.length) :=
      filepathRel_under_root habs.symm hunder
    have hmedia : (Media.mk e.2.id (joinPath root (e.2.path.segs.drop root.segs.length))
        e.2.mime) = e.2 := by
      rw [hjoin]
    have hstep : repoAddM root acc
        ⟨e.2.id, joinPath root (e.2.path.segs.drop root.segs.length), e.2.mime⟩ =
        .ok (addItem acc e.1 (e.2.path.segs.drop root.segs.length) e.2) := by
      rw [hmedia]
      have hidn : lookupA acc.itemsById e.2.id = none := by
        rw [hid]; exact haccid e (by simp)
      have hpathn : lookupA acc.itemsByPath (e.2.path.segs.drop root.segs.length) = none :=
        haccpath e (by simp)
      rw [repoAddM, if_neg (by simp [hid, hvalid]), if_neg (by simp [hmime]),
        repoAdd, hrel]
      dsimp only
      rw [if_neg (by simp [hidn]), if_neg (by simp [hpathn]), hid]
    simp only [List.map_cons, loadItems, hstep]
    have hidn : lookupA acc.itemsById e.1 = none := haccid e (by simp)
    have hpathn : lookupA acc.itemsByPath (e.2.path.segs.drop root.segs.length) = none :=
      haccpath e (by simp)
    have haddItem : addItem acc e.1 (e.2.path.segs.drop root.segs.length) e.2 =
        ⟨acc.itemsById ++ [(e.1, e.2)],
         acc.itemsByPath ++ [(e.2.path.segs.drop root.segs.length, e.2)]⟩ := by
      simp only [addItem, upsertA_of_lookupA_none _ hidn, upsertA_of_lookupA_none _ hpathn]
    rw [haddItem]
    have hpend2 : ∀ x ∈ t, goodMediaEntry root x :=
      fun x hx => hpend x (List.mem_cons_of_mem _ hx)
    have hidcons : e.1 ∉ t.map (fun x => x.1) ∧ (t.map (fun x => x.1)).Nodup := by
      rw [List.map_cons] at hidnodup
      exact List.nodup_cons.mp hidnodup
    have hpathcons : e.2.path ∉ t.map (fun x => x.2.path) ∧
        (t.map (fun x => x.2.path)).Nodup := by
      rw [List.map_cons] at hpathnodup
      exact List.nodup_cons.mp hpathnodup
    have hacc2id : ∀ x ∈ t,
        lookupA (acc.itemsById ++ [(e.1, e.2)]) x.1 = none := by
      intro x hx
      refine lookupA_append_none (haccid x (List.mem_cons_of_mem _ hx)) ?_
      have hxne : x.1 ≠ e.1 := by
        intro hcontra
        exact hidcons.1 (by rw [← hcontra]; exact List.mem_map_of_mem _ hx)
      simp [lookupA, Ne.symm hxne]
    have hacc2path : ∀ x ∈ t,
        lookupA (acc.itemsByPath ++ [(e.2.path.segs.drop root.segs.length, e.2)])
          (x.2.path.segs.drop root.segs.length) = none := by
      intro x hx
      refine lookupA_append_none (haccpath x (List.mem_cons_of_mem _ hx)) ?_
      have hxp := hpend x (List.mem_cons_of_mem _ hx)
      have hxne : x.2.path.segs.drop root.segs.length ≠
          e.2.path.segs.drop root.segs.length := by
        intro hcontra
        have hxeq : x.2.path = e.2.path := by
          have h1 : root.segs ++ x.2.path.segs.drop root.segs.length = x.2.path.segs :=
            startsWithSegs_append_drop hxp.2.2.2.2.1
          have h2 : root.segs ++ e.2.path.segs.drop root.segs.length = e.2.path.segs :=
            startsWithSegs_append_drop hunder
          have hsegs : x.2.path.segs = e.2.path.segs := by
            rw [← h1, ← h2, hcontra]
          have hxa : x.2.path.abs = e.2.path.abs := by
            rw [hxp.2.2.2.1, habs]
          cases hx2 : x.2.path with
          | mk xa xs =>
            cases he2 : e.2.path with
            | mk ea es =>
              rw [hx2, he2] at hsegs hxa
              simp at hsegs hxa
              rw [hsegs, hxa]
        exact hpathcons.1 (by rw [← hxeq]; exact List.mem_map_of_mem _ hx)
      simp [lookupA, Ne.symm hxne]
    rw [ih ⟨acc.itemsById ++ [(e.1, e.2)],
        acc.itemsByPath ++ [(e.2.path.segs.drop root.segs.length, e.2)]⟩
      hpend2 hidcons.2 hpathcons.2 hacc2id hacc2path]
    simp

/-- C6: saving a well-formed base repository (all items valid, clean and
under the root) and loading the persisted items into a fresh base
repository with the same root succeeds and reproduces the id index
exactly — the same ids mapping to the same media, every persisted relative
path rehydrated to the original absolute path.  The provided-all-paths-
still-exist premise of the claim is what makes every load-time Add
succeed; the filesystem stat is not re-modelled beyond it. -/
theorem index_roundtrip (root : GoPath) (s : RepoState) (items : List IndexedItem)
    (hg : GoodState root s)
    (hsv : persistedItems root s = some items) :
    ∃ s2, loadItems root emptyRepo items = .ok s2 ∧
      s2.itemsById = s.itemsById := by
  obtain ⟨hgood, hidnodup, hpathnodup, hrootclean⟩ := hg
  have hpi : persistedItems root s =
      some (s.itemsById.map fun e => ⟨e.2.id, e.2.path.segs.drop root.segs.length, e.2.mime⟩) := by
    unfold persistedItems repoItems
    exact persistedOf_of_good root s.itemsById hgood
  have hitems : items =
      s.itemsById.map fun e => ⟨e.2.id, e.2.path.segs.drop root.segs.length, e.2.mime⟩ := by
    rw [hpi] at hsv
    exact (Option.some.inj hsv).symm
  subst hitems
  refine ⟨_, loadItems_append_ok root s.itemsById emptyRepo hgood hrootclean hidnodup
    hpathnodup (fun e _ => rfl) (fun e _ => rfl), ?_⟩
  simp [emptyRepo]

/-- Witness for C6: a one-item repository at root /r round-trips through
the persisted index into a fresh repository with the identical id index. -/
theorem index_roundtrip_witness :
    ∃ s2, loadItems ⟨true, ["r"]⟩ emptyRepo
        [⟨"bocchi-mkv", ["bocchi.mkv"], "video/x-matroska"⟩] = .ok s2 ∧
      s2.itemsById =
        (RepoState.mk
          [("bocchi-mkv", ⟨"bocchi-mkv", ⟨true, ["r", "bocchi.mkv"]⟩, "video/x-matroska"⟩)]
          [(["bocchi.mkv"], ⟨"bocchi-mkv", ⟨true, ["r", "bocchi.mkv"]⟩, "video/x-matroska"⟩)]).itemsById :=
  index_roundtrip ⟨true, ["r"]⟩
    (RepoState.mk
      [("bocchi-mkv", ⟨"bocchi-mkv", ⟨true, ["r", "bocchi.mkv"]⟩, "video/x-matroska"⟩)]
      [(["bocchi.mkv"], ⟨"bocchi-mkv", ⟨true, ["r", "bocchi.mkv"]⟩, "video/x-matroska"⟩)])
    [⟨"bocchi-mkv", ["bocchi.mkv"], "video/x-matroska"⟩]
    (by refine ⟨?_, by decide, by decide, by decide⟩
        intro e he
        simp at he
        subst he
        refine ⟨rfl, by decide, by decide, rfl, by decide, by decide⟩)
    rfl

/-- filepath.Ext: the suffix of the path beginning at the final dot in the
final element, dot included; empty when the final element has no dot
(helper over the reversed character list). -/
def stringExtAux : List Char → List Char → String
  | [], _ => ""
  | c :: rest, acc =>
    if c = '/' then ""
    else if c = '.' then String.mk ('.' :: acc)
    else stringExtAux rest (c :: acc)

/-- filepath.Ext over a path given as a raw string. -/
def stringExt (s : String) : String :=
  stringExtAux s.data.reverse []

/-- filepath.Base over a path given as a raw string: the part after the last
slash (the repository only applies it to non-empty paths without trailing
slashes). -/
def stringBase (s : String) : String :=
  String.mk ((s.data.reverse.takeWhile (fun c => c ≠ '/')).reverse)

/-- strings.TrimSuffix: drop the given suffix when the string ends in it. -/
def trimSuffix (s suf : String) : String :=
  if suf.data.length ≤ s.data.length ∧
      s.data.drop (s.data.length - suf.data.length) = suf.data then
    String.mk (s.data.take (s.data.length - suf.data.length))
  else s

/-- media.Format (format.go): container format name, MIME type and
preferred file extension, documented there as carrying no leading dot. -/
structure Format where
  name : String
  mime : String
  extension : String
deriving DecidableEq

/-- FormatMP4 of the registry. -/
def FormatMP4 : Format := ⟨"MP4", "video/mp4", "mp4"⟩

/-- FormatMKV of the registry. -/
def FormatMKV : Format := ⟨"MKV", "video/x-matroska", "mkv"⟩

/-- All registered formats (format.go: formats). -/
def registryFormats : List Format := [FormatMP4, FormatMKV]

/-- FindFormatMIME: lookup by MIME type (the formatsByMime map holds exactly
the registered formats keyed by their MIME strings). -/
def FindFormatMIME (mime : String) : Option Format :=
  registryFormats.find? (fun f => f.mime = mime)

/-- FindUnsupportedFormat: the registered entry when the MIME type is known,
otherwise a freshly constructed placeholder with zero-value name carrying
the given MIME type and extension verbatim. -/
def FindUnsupportedFormat (mime ext : String) : Format :=
  match FindFormatMIME mime with
  | some f => f
  | none => ⟨"", mime, ext⟩

/-- mutableRepo.detectAndCheckFormat, with the MIME type the external
mimetype library detects passed in: classify via FindUnsupportedFormat
applied to the detected MIME and filepath.Ext of the path, then check the
MIME group. -/
def detectAndCheckFormat (detectedMime : String) (path : String) : Format × Bool :=
  let format := FindUnsupportedFormat detectedMime (stringExt path)
  (format, checkMimeOk format.mime)

/-- C10: the claim states every Format observable through the registry
carries an extension without a leading dot, including the unsupported
placeholder FindUnsupportedFormat builds when the repository classifies a
file with an unregistered MIME type.  The code violates this: the
repository calls FindUnsupportedFormat with filepath.Ext, whose result
keeps the leading dot, so classifying /r/movie.avi (detected
video/x-msvideo, an unregistered MIME type that passes the video group
check) yields a placeholder whose extension is the dotted .avi — contrary
to the Format field's own documentation. -/
theorem unsupported_format_keeps_leading_dot :
    (detectAndCheckFormat "video/x-msvideo" "/r/movie.avi").1 =
      Format.mk "" "video/x-msvideo" ".avi" ∧
    (detectAndCheckFormat "video/x-msvideo" "/r/movie.avi").2 = true ∧
    startsWithDot (detectAndCheckFormat "video/x-msvideo" "/r/movie.avi").1.extension = true ∧
    (∀ f ∈ registryFormats, startsWithDot f.extension = false) := by
  refine ⟨by decide, by decide, by decide, by decide⟩

/-- Media as the muxing stack sees it (the Format-carrying generation of
media.Media): id, absolute path, container format and MIME type.  A
relocatedMedia overrides only the path and the MIME type, keeping the
wrapped media's format. -/
structure FormatMedia where
  id : String
  path : GoPath
  format : Format
  mime : String
deriving DecidableEq

/-- Errors the mux decorator can surface in the embedded operations. -/
inductive MuxErr where
  | fileOpenFailed
  | unsupportedFormat (name op : String)
deriving DecidableEq

/-- Filesystem side effects of a mux-decorator operation, in program order. -/
inductive FsEff where
  | openRead (p : GoPath)
  | statFile (p : GoPath)
  | openInput (p : GoPath)
  | openOutput (p : GoPath)
deriving DecidableEq

/-- Stand-in for the crypto/md5 digest makeHash computes over the first
MiB of the file concatenated with the little-endian int64 size: an
unspecified deterministic digest function. -/
def digest64 (s : String) : Nat :=
  s.data.foldl (fun a c => (a * 131 + c.toNat) % (2 ^ 64)) 7

/-- Hex digest of (content-head, size), modelling md5's output string. -/
def md5hex (contentHead : String) (size : Nat) : String :=
  toString (digest64 (contentHead ++ toString size))

/-- makeHash (mux.go): open the source file — failing when it does not
exist — then digest its first MiB together with its size. -/
def makeHash (fs : List (GoPath × String)) (p : GoPath) : Except MuxErr String :=
  match lookupA fs p with
  | none => .error .fileOpenFailed
  | some content =>
    .ok (md5hex (String.mk (content.data.take (1024 * 1024))) content.data.length)

/-- State of the mux decorator and the mutable repository it wraps: the
wrapped repository's root and two indices, the filesystem, and the two
cache directories allocated at construction. -/
structure MuxState where
  root : GoPath
  itemsById : List (String × FormatMedia)
  itemsByPath : List (List String × FormatMedia)
  fs : List (GoPath × String)
  remuxPath : GoPath
  transcodePath : GoPath
deriving DecidableEq

/-- The wrapped mutableRepo.RemovePath: relativize, look up, drop from both
indices; nil error in every branch. -/
def wrappedRemovePath (st : MuxState) (p : GoPath) : MuxState :=
  match filepathRel st.root p with
  | none => st
  | some relPath =>
    match lookupA st.itemsByPath relPath with
    | none => st
    | some m =>
      { st with itemsById := eraseA st.itemsById m.id,
                itemsByPath := eraseA st.itemsByPath relPath }

/-- The wrapped mutableRepo.Remove: relativize the media's path and drop
both index entries; nil error in every branch. -/
def wrappedRemove (st : MuxState) (m : FormatMedia) : MuxState :=
  match filepathRel st.root m.path with
  | none => st
  | some relPath =>
    { st with itemsById := eraseA st.itemsById m.id,
              itemsByPath := eraseA st.itemsByPath relPath }

/-- The final path component of a path (fs.DirEntry Name of a walked file). -/
def lastSegOf (p : GoPath) : String :=
  (p.segs.getLast?).getD ""

/-- Does a filesystem entry lie in the given cache directory and carry the
given fingerprint as its base name without extension
(muxRepo.remove's walk predicate)? -/
def cacheFileMatches (dir : GoPath) (h : String) (p : GoPath) : Bool :=
  (dir.abs = p.abs : Bool) && startsWithSegs dir.segs p.segs && decide (p ≠ dir) &&
    decide (trimSuffix (lastSegOf p) (stringExt (lastSegOf p)) = h)

/-- muxRepo.remove(hash): walk both cache directories and delete every file
whose name-without-extension equals the fingerprint (each deletion runs
under the keyed mutex for its path; the model is sequential). -/
def removeCacheByHash (st : MuxState) (h : String) : MuxState :=
  { st with fs := st.fs.filter (fun e =>
      !(cacheFileMatches st.remuxPath h e.1 || cacheFileMatches st.transcodePath h e.1)) }

/-- muxRepo.RemovePath: fingerprint the source file first — an error there
returns before anything is delegated — then delegate the removal and
finally delete matching cache files. -/
def muxRemovePath (st : MuxState) (p : GoPath) : Option MuxErr × MuxState :=
  match makeHash st.fs p with
  | .error e => (some e, st)
  | .ok h => (none, removeCacheByHash (wrappedRemovePath st p) h)

/-- muxRepo.Remove: same discipline as muxRepo.RemovePath, keyed on the
media's path. -/
def muxRemove (st : MuxState) (m : FormatMedia) : Option MuxErr × MuxState :=
  match makeHash st.fs m.path with
  | .error e => (some e, st)
  | .ok h => (none, removeCacheByHash (wrappedRemove st m) h)

/-- Modelled from the external mux library: FindMuxer and FindDemuxer
succeed for both registered container formats (the FFmpeg backend ships
MP4 and MKV muxers), so the decorator's formats map holds exactly the
registered formats, each with a non-nil muxer. -/
def findMuxerFormat (f : Format) : Option Format :=
  registryFormats.find? (fun g => g = f)

/-- Stand-in for the stream-copy output the external muxer produces at the
destination: a deterministic function of the source bytes and the target
format. -/
def muxedContent (src : String) (f : Format) : String :=
  f.name ++ ":" ++ src

/-- The destination cache path Remux computes: the remux directory joined
with fingerprint.extension. -/
def remuxDstPath (st : MuxState) (content : String) (fmt : Format) : GoPath :=
  joinPath st.remuxPath
    [md5hex (String.mk (content.data.take (1024 * 1024))) content.data.length
      ++ "." ++ fmt.extension]

/-- muxRepo.Remux: resolve the source by id (missing gives none with a nil
error), take the fast path when the MIME types already agree, otherwise
fingerprint the source, compute the destination under the remux directory
and, under the keyed mutex for the source path (the model is sequential):
return the relocated view when the destination exists, fail when no muxer
serves the target format, else stream-copy — the external muxer opens its
output context directly on the destination path — and return the relocated
view.  The result carries the final filesystem and the ordered effects. -/
def muxRemux (st : MuxState) (id : String) (fmt : Format) :
    Except MuxErr (Option FormatMedia × List (GoPath × String) × List FsEff) :=
  match lookupA st.itemsById id with
  | none => .ok (none, st.fs, [])
  | some m =>
    if m.format.mime = fmt.mime then .ok (some m, st.fs, [])
    else
      match makeHash st.fs m.path with
      | .error e => .error e
      | .ok h =>
        let dst : GoPath := joinPath st.remuxPath [h ++ "." ++ fmt.extension]
        let reloc : FormatMedia := ⟨m.id, dst, m.format, fmt.mime⟩
        if (lookupA st.fs dst).isSome then
          .ok (some reloc, st.fs, [.openRead m.path, .statFile dst])
        else
          match findMuxerFormat fmt with
          | none => .error (.unsupportedFormat fmt.name "muxing")
          | some _ =>
            .ok (some reloc,
              upsertA st.fs dst (muxedContent ((lookupA st.fs m.path).getD "") fmt),
              [.openRead m.path, .statFile dst, .openInput m.path, .openOutput dst])

/-- C3: the mux decorator's Remove and RemovePath fingerprint the source by
opening and reading the file before delegating, so for a path whose file no
longer exists both return an error with the whole state — in particular the
wrapped repository's indices — untouched: the base repository's idempotent
no-op removal is not preserved by this decorator. -/
theorem mux_remove_requires_source_file (st : MuxState) (p : GoPath)
    (habs : lookupA st.fs p = none) :
    muxRemovePath st p = (some .fileOpenFailed, st) ∧
    (∀ m : FormatMedia, m.path = p → muxRemove st m = (some .fileOpenFailed, st)) ∧
    (muxRemovePath st p).2.itemsByPath = st.itemsByPath := by
  have hh : makeHash st.fs p = .error .fileOpenFailed := by
    unfold makeHash; rw [habs]
  refine ⟨?_, ?_, ?_⟩
  · simp [muxRemovePath, hh]
  · intro m hm
    simp [muxRemove, hm, hh]
  · simp [muxRemovePath, hh]

/-- Source media of the concrete mux scenarios: an MKV file at
/r/movie.mkv. -/
def muxTestMedia : FormatMedia :=
  ⟨"movie-mkv", ⟨true, ["r", "movie.mkv"]⟩, FormatMKV, "video/x-matroska"⟩

/-- Concrete mux-decorator state: one MKV item, its file on disk, cache
directories /c/remux and /c/transcode. -/
def muxTestState : MuxState :=
  ⟨⟨true, ["r"]⟩,
   [("movie-mkv", muxTestMedia)],
   [(["movie.mkv"], muxTestMedia)],
   [(⟨true, ["r", "movie.mkv"]⟩, "MKVDATA")],
   ⟨true, ["c", "remux"]⟩,
   ⟨true, ["c", "transcode"]⟩⟩

/-- The same state after the media's file disappeared from disk. -/
def muxGoneState : MuxState :=
  ⟨⟨true, ["r"]⟩,
   [("movie-mkv", muxTestMedia)],
   [(["movie.mkv"], muxTestMedia)],
   [],
   ⟨true, ["c", "remux"]⟩,
   ⟨true, ["c", "transcode"]⟩⟩

/-- Witness for C3: with /r/movie.mkv gone from disk, RemovePath errors and
the wrapped repository still holds the media. -/
theorem mux_remove_requires_source_file_witness :
    muxRemovePath muxGoneState ⟨true, ["r", "movie.mkv"]⟩ =
      (some .fileOpenFailed, muxGoneState) ∧
    muxRemove muxGoneState muxTestMedia = (some .fileOpenFailed, muxGoneState) :=
  ⟨(mux_remove_requires_source_file muxGoneState ⟨true, ["r", "movie.mkv"]⟩ rfl).1,
   (mux_remove_requires_source_file muxGoneState ⟨true, ["r", "movie.mkv"]⟩ rfl).2.1
     muxTestMedia rfl⟩

/-- C4: Remux on the mux decorator returns (none, nil error) for a missing
id, and when the source's MIME type already equals the target format's it
returns the source media itself with the filesystem unchanged and no
effects at all — no fingerprint read, no stat, no write. -/
theorem remux_missing_id_and_fast_path (st : MuxState) (id : String) (fmt : Format)
    (m : FormatMedia) :
    (lookupA st.itemsById id = none → muxRemux st id fmt = .ok (none, st.fs, [])) ∧
    (lookupA st.itemsById id = some m → m.format.mime = fmt.mime →
      muxRemux st id fmt = .ok (some m, st.fs, [])) := by
  constructor
  · intro h
    simp [muxRemux, h]
  · intro h hmime
    simp [muxRemux, h, hmime]

/-- Witness for C4: an unknown id yields none without error, and remuxing
the MKV item to MKV takes the fast path with no effects. -/
theorem remux_missing_id_and_fast_path_witness :
    muxRemux muxTestState "nope" FormatMKV = .ok (none, muxTestState.fs, []) ∧
    muxRemux muxTestState "movie-mkv" FormatMKV = .ok (some muxTestMedia, muxTestState.fs, []) :=
  ⟨(remux_missing_id_and_fast_path muxTestState "nope" FormatMKV muxTestMedia).1 rfl,
   (remux_missing_id_and_fast_path muxTestState "movie-mkv" FormatMKV muxTestMedia).2 rfl rfl⟩

/-- C2 counterexample: the claim states the conversion runs into a
temporary file and never writes directly to the final destination.  On the
concrete state remuxing the MKV item to MP4, the run opens the external
muxer's output context directly on the destination path
/c/remux/fingerprint.mp4 — the single write of the conversion — with no
temporary involved. -/
theorem remux_writes_destination_directly :
    muxRemux muxTestState "movie-mkv" FormatMP4 =
      .ok (some ⟨"movie-mkv", remuxDstPath muxTestState "MKVDATA" FormatMP4, FormatMKV,
          "video/mp4"⟩,
        upsertA muxTestState.fs (remuxDstPath muxTestState "MKVDATA" FormatMP4)
          (muxedContent "MKVDATA" FormatMP4),
        [.openRead ⟨true, ["r", "movie.mkv"]⟩,
         .statFile (remuxDstPath muxTestState "MKVDATA" FormatMP4),
         .openInput ⟨true, ["r", "movie.mkv"]⟩,
         .openOutput (remuxDstPath muxTestState "MKVDATA" FormatMP4)]) ∧
    FsEff.openOutput (remuxDstPath muxTestState "MKVDATA" FormatMP4) ∈
      [FsEff.openRead ⟨true, ["r", "movie.mkv"]⟩,
       FsEff.statFile (remuxDstPath muxTestState "MKVDATA" FormatMP4),
       FsEff.openInput ⟨true, ["r", "movie.mkv"]⟩,
       FsEff.openOutput (remuxDstPath muxTestState "MKVDATA" FormatMP4)] :=
  ⟨rfl, by decide⟩

/-- C2 amended: whenever Remux reaches the conversion step (source present
on disk, destination cache file absent, a muxer registered for the target
format), the stream-copy writes directly into the destination path
remux-dir/fingerprint.extension — the only output open of the run is the
destination itself; no temporary file is involved. -/
theorem remux_conversion_goes_straight_to_dst (st : MuxState) (id : String) (fmt : Format)
    (m : FormatMedia) (content : String) (g : Format)
    (h1 : lookupA st.itemsById id = some m)
    (h2 : ¬ m.format.mime = fmt.mime)
    (h3 : lookupA st.fs m.path = some content)
    (h4 : lookupA st.fs (remuxDstPath st content fmt) = none)
    (h5 : findMuxerFormat fmt = some g) :
    muxRemux st id fmt =
      .ok (some ⟨m.id, remuxDstPath st content fmt, m.format, fmt.mime⟩,
        upsertA st.fs (remuxDstPath st content fmt) (muxedContent content fmt),
        [.openRead m.path, .statFile (remuxDstPath st content fmt), .openInput m.path,
         .openOutput (remuxDstPath st content fmt)]) ∧
    (∀ q, FsEff.openOutput q ∈
        [FsEff.openRead m.path, FsEff.statFile (remuxDstPath st content fmt),
         FsEff.openInput m.path, FsEff.openOutput (remuxDstPath st content fmt)] →
      q = remuxDstPath st content fmt) := by
  have hmk : makeHash st.fs m.path =
      .ok (md5hex (String.mk (content.data.take (1024 * 1024))) content.data.length) := by
    unfold makeHash; rw [h3]
  constructor
  · have hdst : joinPath st.remuxPath
        [md5hex (String.mk (content.data.take (1024 * 1024))) content.data.length
          ++ "." ++ fmt.extension] = remuxDstPath st content fmt := rfl
    simp only [muxRemux, h1, hmk, h3]
    rw [if_neg h2, hdst, if_neg (by simp [h4]), h5]
    rfl
  · intro q hq
    simp at hq
    exact hq

/-- Witness for the amended C2 at the concrete state. -/
theorem remux_conversion_goes_straight_to_dst_witness :
    muxRemux muxTestState "movie-mkv" FormatMP4 =
      .ok (some ⟨"movie-mkv", remuxDstPath muxTestState "MKVDATA" FormatMP4, FormatMKV,
          "video/mp4"⟩,
        upsertA muxTestState.fs (remuxDstPath muxTestState "MKVDATA" FormatMP4)
          (muxedContent "MKVDATA" FormatMP4),
        [.openRead ⟨true, ["r", "movie.mkv"]⟩,
         .statFile (remuxDstPath muxTestState "MKVDATA" FormatMP4),
         .openInput ⟨true, ["r", "movie.mkv"]⟩,
         .openOutput (remuxDstPath muxTestState "MKVDATA" FormatMP4)]) :=
  (remux_conversion_goes_straight_to_dst muxTestState "movie-mkv" FormatMP4 muxTestMedia
    "MKVDATA" FormatMP4 rfl (by decide) rfl rfl rfl).1

/-- Case-insensitive character comparison (the (?i) regex flag). -/
def ciEq (a b : Char) : Bool :=
  a.toLower = b.toLower

/-- Case-insensitive literal prefix match of a pattern against the input. -/
def matchCI : List Char → List Char → Bool
  | [], _ => true
  | _ :: _, [] => false
  | p :: ps, c :: cs => ciEq c p && matchCI ps cs

/-- Is the character at offset n a decimal digit? -/
def nthDigit (cs : List Char) (n : Nat) : Bool :=
  match cs.drop n with
  | c :: _ => c.isDigit
  | [] => false

/-- Is the character at offset n exactly x? -/
def nthIs (cs : List Char) (n : Nat) (x : Char) : Bool :=
  match cs.drop n with
  | c :: _ => c = x
  | [] => false

/-- Match of the resolution pattern
(2160|1440|1080|720|480|360|240|144)(p|i), case-insensitive, at the head of
the input: the alternatives are tried in the pattern's order and the
returned value is the length of the match. -/
def matchResolutionAt (cs : List Char) : Option Nat :=
  let pi := fun (n : Nat) => nthIs cs n 'p' || nthIs cs n 'P' || nthIs cs n 'i' || nthIs cs n 'I'
  let lit := fun (w : String) => (w.data.enum.all fun p => nthIs cs p.1 p.2 : Bool)
  if lit "2160" && pi 4 then some 5
  else if lit "1440" && pi 4 then some 5
  else if lit "1080" && pi 4 then some 5
  else if lit "720" && pi 3 then some 4
  else if lit "480" && pi 3 then some 4
  else if lit "360" && pi 3 then some 4
  else if lit "240" && pi 3 then some 4
  else if lit "144" && pi 3 then some 4
  else none

/-- regexp.ReplaceAllLiteralString for the resolution pattern: scan left to
right, drop each leftmost non-overlapping match, keep other characters.
The fuel argument equals the remaining input length. -/
def replaceResolutionAux : Nat → List Char → List Char
  | 0, _ => []
  | _ + 1, [] => []
  | fuel + 1, c :: rest =>
    match matchResolutionAt (c :: rest) with
    | some n => replaceResolutionAux fuel ((c :: rest).drop n)
    | none => c :: replaceResolutionAux fuel rest

/-- Resolution-token removal (fileAnalysisSource step 1). -/
def replaceResolution (cs : List Char) : List Char :=
  replaceResolutionAux cs.length cs

/-- Match of the encoding pattern
[Hx]\.?26\d|HEVC|MPEG(?:-\d)?|DivX|VP\d|AV\d, case-insensitive, at the head
of the input, alternatives in the pattern's order, preferring the greedy
optional parts; returns the length of the match. -/
def matchEncodingAt (cs : List Char) : Option Nat :=
  let head := fun (pred : Char → Bool) =>
    match cs with
    | c :: _ => pred c
    | [] => false
  if head (fun c => c = 'H' ∨ c = 'h' ∨ c = 'X' ∨ c = 'x') then
    if nthIs cs 1 '.' && nthIs cs 2 '2' && nthIs cs 3 '6' && nthDigit cs 4 then some 5
    else if nthIs cs 1 '2' && nthIs cs 2 '6' && nthDigit cs 3 then some 4
    else if matchCI "HEVC".data cs then some 4
    else none
  else if matchCI "HEVC".data cs then some 4
  else if matchCI "MPEG".data cs then
    if nthIs cs 4 '-' && nthDigit cs 5 then some 6 else some 4
  else if matchCI "DivX".data cs then some 4
  else if matchCI "VP".data cs && nthDigit cs 2 then some 3
  else if matchCI "AV".data cs && nthDigit cs 2 then some 3
  else none

/-- regexp.ReplaceAllLiteralString for the encoding pattern. -/
def replaceEncodingAux : Nat → List Char → List Char
  | 0, _ => []
  | _ + 1, [] => []
  | fuel + 1, c :: rest =>
    match matchEncodingAt (c :: rest) with
    | some n => replaceEncodingAux fuel ((c :: rest).drop n)
    | none => c :: replaceEncodingAux fuel rest

/-- Encoding-token removal (fileAnalysisSource step 2). -/
def replaceEncoding (cs : List Char) : List Char :=
  replaceEncodingAux cs.length cs

/-- One step of stripBracketLike's rune loop: the accumulator pairs the
written output with the current scrubUntil character, NUL meaning none. -/
def sbStep (st : List Char × Char) (c : Char) : List Char × Char :=
  if c = '(' then (st.1, ')')
  else if c = '[' then (st.1, ']')
  else if c = '\x7b' then (st.1, '\x7d')
  else if c = st.2 then (st.1, '\x00')
  else if st.2 = '\x00' then (st.1 ++ [c], '\x00')
  else st

/-- stripBracketLike (source.go): scrub every parenthesized, bracketed or
braced segment, including the bracket characters themselves. -/
def stripBracketLike (s : String) : String :=
  String.mk (s.data.foldl sbStep ([], '\x00')).1

/-- Is this character one of the episode markers E or X (either case)? -/
def isEXCh (c : Char) : Bool :=
  (c = 'e' ∨ c = 'E' ∨ c = 'x' ∨ c = 'X' : Bool)

/-- Match of the episode pattern S(\d+) ?[EX](\d+), case-insensitive, at the
head of the input: an S, one-or-more digits (greedy), an optional single
space, an E or X, one-or-more digits; returns the match length and the two
captured digit groups.  Because \d+ cannot consume the marker, the regex
backtracking is deterministic and this direct scan agrees with it. -/
def matchEpisodeAt : List Char → Option (Nat × List Char × List Char)
  | [] => none
  | c :: rest =>
    if c = 's' ∨ c = 'S' then
      let d1 := rest.takeWhile Char.isDigit
      if d1.isEmpty then none
      else
        match rest.drop d1.length with
        | e :: rest2 =>
          if e = ' ' then
            match rest2 with
            | x :: rest3 =>
              if isEXCh x then
                let d2 := rest3.takeWhile Char.isDigit
                if d2.isEmpty then none
                else some (1 + d1.length + 2 + d2.length, d1, d2)
              else none
            | [] => none
          else if isEXCh e then
            let d2 := rest2.takeWhile Char.isDigit
            if d2.isEmpty then none
            else some (1 + d1.length + 1 + d2.length, d1, d2)
          else none
        | [] => none
    else none

/-- FindStringSubmatch of the episode pattern: the leftmost match with its
start index.  The start index also equals strings.Index of the matched
text, since an earlier occurrence of the matched text would itself be an
earlier match of the pattern. -/
def findEpisodeFrom : List Char → Nat → Option (Nat × Nat × List Char × List Char)
  | [], _ => none
  | c :: rest, i =>
    match matchEpisodeAt (c :: rest) with
    | some (len, g1, g2) => some (i, len, g1, g2)
    | none => findEpisodeFrom rest (i + 1)

/-- strconv.Atoi applied to strings.TrimLeft(digits, "0"): the numeric value
of the digits; the all-zeros case trims to the empty string, where Atoi
errors and the ignored-error assignment leaves zero. -/
def atoiTrimZeros (cs : List Char) : Int :=
  (((cs.dropWhile (fun c => c = '0')).foldl (fun a c => a * 10 + (c.toNat - 48)) 0 : Nat) : Int)

/-- The meta delimiter replacer of source.go: dashes, underscores and dots
become spaces. -/
def metaDelimReplace (cs : List Char) : List Char :=
  cs.map (fun c => if c = '-' ∨ c = '_' ∨ c = '.' then ' ' else c)

/-- strings.Fields over the space-delimited result (the pipeline produces
no other whitespace). -/
def fieldsAux : List Char → List Char → List String
  | [], acc => if acc.isEmpty then [] else [String.mk acc.reverse]
  | c :: rest, acc =>
    if c = ' ' then
      if acc.isEmpty then fieldsAux rest []
      else String.mk acc.reverse :: fieldsAux rest []
    else fieldsAux rest (c :: acc)

/-- strings.Join(strings.Fields(replacer.Replace(s)), " "): the query text
normalization at the end of fileAnalysisSource.FromFile. -/
def spaceJoined (s : String) : String :=
  String.intercalate " " (fieldsAux (metaDelimReplace s.data) [])

/-- meta.Type: the metadata discriminator. -/
inductive MetaType where
  | unknown
  | movie
  | series
  | episode
deriving DecidableEq

/-- meta.Query with set values: search text, type, season and episode
numbers (negative meaning not an episode query). -/
structure MetaQuery where
  query : String
  type : MetaType
  season : Int
  episode : Int
deriving DecidableEq

/-- fileAnalysisSource.FromFile up to the delegation point: the query value
handed to the wrapped source's FromQuery.  Base name, extension strip,
episode detection with capture groups (else resolution, encoding and
bracket stripping), delimiter mapping and field joining. -/
def fileAnalysisQuery (path : String) : MetaQuery :=
  let fileName := stringBase path
  let nameWithoutExt := trimSuffix fileName (stringExt fileName)
  match findEpisodeFrom nameWithoutExt.data 0 with
  | some (i, _len, g1, g2) =>
    ⟨spaceJoined (String.mk (nameWithoutExt.data.take i)), .episode,
      atoiTrimZeros g1, atoiTrimZeros g2⟩
  | none =>
    ⟨spaceJoined (stripBracketLike (String.mk (replaceEncoding
        (replaceResolution nameWithoutExt.data)))), .unknown, -1, -1⟩

/-- C8: the file-analysis source, applied to the scene-release file name of
the claim, delegates to the wrapped source exactly the query with text
chicago med, type episode, season 6 and episode 9. -/
theorem file_analysis_episode_query :
    fileAnalysisQuery "chicago.med.s06e09.720p.hdtv.x264-syncopy[eztv.re].mkv" =
      ⟨"chicago med", .episode, 6, 9⟩ := by
  decide

/-- A keyed-mutex call (internal/sync kmutex.go): Make or Release for a key.
Lock and Unlock on the handed-out mutex do not touch the map and are not
modelled. -/
inductive KOp where
  | make (k : String)
  | release (k : String)
deriving DecidableEq

/-- Two's-complement 32-bit addition, as atomic.AddInt32 performs on the
refCount field. -/
def add32 (x y : Int) : Int :=
  (x + y + 2 ^ 31) % 2 ^ 32 - 2 ^ 31

/-- KMutex.Make: increment the refcount of an existing entry, otherwise
insert the key with refcount one (the nil-map case only makes the map). -/
def kMake (m : List (String × Int)) (k : String) : List (String × Int) :=
  match lookupA m k with
  | some c => upsertA m k (add32 c 1)
  | none => upsertA m k 1

/-- KMutex.Release: decrement an existing entry's refcount and delete the
entry when the result is at most zero; absent keys are a no-op. -/
def kRelease (m : List (String × Int)) (k : String) : List (String × Int) :=
  match lookupA m k with
  | some c => if add32 c (-1) ≤ 0 then eraseA m k else upsertA m k (add32 c (-1))
  | none => m

/-- One keyed-mutex call applied to the map. -/
def kStep (m : List (String × Int)) : KOp → List (String × Int)
  | .make k => kMake m k
  | .release k => kRelease m k

/-- A sequence of keyed-mutex calls applied in order. -/
def kRun (m : List (String × Int)) (ops : List KOp) : List (String × Int) :=
  ops.foldl kStep m

/-- The evolution one key's map entry undergoes along a call sequence. -/
def kProjStep (k : String) (st : Option Int) : KOp → Option Int
  | .make k2 =>
    if k2 = k then
      match st with
      | some c => some (add32 c 1)
      | none => some 1
    else st
  | .release k2 =>
    if k2 = k then
      match st with
      | some c => if add32 c (-1) ≤ 0 then none else some (add32 c (-1))
      | none => none
    else st

/-- How many times the sequence calls Make for the key. -/
def makeCount (k : String) : List KOp → Nat
  | [] => 0
  | .make k2 :: t => (if k2 = k then 1 else 0) + makeCount k t
  | .release _ :: t => makeCount k t

/-- How many times the sequence calls Release for the key. -/
def releaseCount (k : String) : List KOp → Nat
  | [] => 0
  | .release k2 :: t => (if k2 = k then 1 else 0) + releaseCount k t
  | .make _ :: t => releaseCount k t

/-- Balanced-call discipline for one key, carrying the running
Make-minus-Release excess: no Release for the key ever outruns the Makes,
and the sequence ends with the excess back at zero. -/
def balancedFrom (k : String) : List KOp → Int → Bool
  | [], c => decide (c = 0)
  | .make k2 :: t, c => balancedFrom k t (if k2 = k then c + 1 else c)
  | .release k2 :: t, c =>
    if k2 = k then (if 0 < c then balancedFrom k t (c - 1) else false)
    else balancedFrom k t c

theorem lookupA_eraseA_self {α β : Type} [DecidableEq α] (l : List (α × β)) (k : α) :
    lookupA (eraseA l k) k = none := by
  induction l with
  | nil => rfl
  | cons e t ih =>
    by_cases he : e.1 = k <;> simp [eraseA, lookupA, he, ih]

theorem lookupA_eraseA_ne {α β : Type} [DecidableEq α] (l : List (α × β)) {k k2 : α}
    (h : k ≠ k2) : lookupA (eraseA l k) k2 = lookupA l k2 := by
  induction l with
  | nil => rfl
  | cons e t ih =>
    by_cases he : e.1 = k
    · simp [eraseA, lookupA, he, ih, h]
    · by_cases he2 : e.1 = k2 <;> simp [eraseA, lookupA, he, he2, ih, h, Ne.symm h]

theorem add32_eq {x y : Int} (h1 : -(2 ^ 31) ≤ x + y) (h2 : x + y < 2 ^ 31) :
    add32 x y = x + y := by
  unfold add32
  have h3 : (0 : Int) ≤ x + y + 2 ^ 31 := by omega
  have h4 : x + y + 2 ^ 31 < 2 ^ 32 := by omega
  rw [Int.emod_eq_of_lt h3 h4]
  ring

theorem lookupA_kStep (m : List (String × Int)) (op : KOp) (k : String) :
    lookupA (kStep m op) k = kProjStep k (lookupA m k) op := by
  cases op with
  | make k2 =>
    by_cases hk : k2 = k
    · subst hk
      simp only [kStep, kMake, kProjStep, if_pos rfl]
      cases h : lookupA m k2 with
      | none => simp [lookupA_upsertA_self]
      | some c => simp [lookupA_upsertA_self]
    · simp only [kStep, kMake, kProjStep, if_neg hk]
      cases h : lookupA m k2 with
      | none => exact lookupA_upsertA_ne _ _ hk
      | some c => exact lookupA_upsertA_ne _ _ hk
  | release k2 =>
    by_cases hk : k2 = k
    · subst hk
      simp only [kStep, kRelease, kProjStep, if_pos rfl]
      cases h : lookupA m k2 with
      | none => simp [h]
      | some c =>
        by_cases hz : add32 c (-1) ≤ 0
        · simp [hz, lookupA_eraseA_self]
        · simp [hz, lookupA_upsertA_self]
    · simp only [kStep, kRelease, kProjStep, if_neg hk]
      cases h : lookupA m k2 with
      | none => rfl
      | some c =>
        by_cases hz : add32 c (-1) ≤ 0
        · simp [hz, lookupA_eraseA_ne _ hk]
        · simp [hz, lookupA_upsertA_ne _ _ hk]

theorem lookupA_kRun (ops : List KOp) (m : List (String × Int)) (k : String) :
    lookupA (kRun m ops) k = ops.foldl (kProjStep k) (lookupA m k) := by
  induction ops generalizing m with
  | nil => rfl
  | cons op t ih =>
    simp only [kRun, List.foldl_cons] at ih ⊢
    rw [ih (kStep m op), lookupA_kStep]

theorem makeCount_le_length (k : String) (ops : List KOp) :
    makeCount k ops ≤ ops.length := by
  induction ops with
  | nil => simp [makeCount]
  | cons op t ih =>
    cases op with
    | make k2 =>
      by_cases hk : k2 = k <;> simp [makeCount, hk] <;> omega
    | release k2 => simp [makeCount]; omega

theorem kproj_balanced_none (k : String) (ops : List KOp) (c : Int) (st : Option Int)
    (hst : st = if 0 < c then some c else none)
    (hc : 0 ≤ c)
    (hbal : balancedFrom k ops c = true)
    (hbound : c + (makeCount k ops : Int) ≤ 2 ^ 31 - 1) :
    ops.foldl (kProjStep k) st = none := by
  induction ops generalizing c st with
  | nil =>
    simp only [balancedFrom, decide_eq_true_eq] at hbal
    subst hbal
    simpa using hst
  | cons op t ih =>
    cases op with
    | make k2 =>
      by_cases hk : k2 = k
      · subst hk
        simp only [balancedFrom, if_pos rfl] at hbal
        simp [makeCount] at hbound
        have hadd : add32 c 1 = c + 1 := add32_eq (by omega) (by omega)
        have hstep : kProjStep k2 st (.make k2) = some (c + 1) := by
          subst hst
          by_cases hpos : 0 < c
          · rw [if_pos hpos]
            simp [kProjStep, hadd]
          · have hc0 : c = 0 := by omega
            subst hc0
            simp [kProjStep]
        simp only [List.foldl_cons, hstep]
        exact ih (c + 1) _ (by simp [show (0 : Int) < c + 1 by omega]) (by omega) hbal
          (by push_cast at hbound ⊢; omega)
      · simp only [balancedFrom, if_neg hk] at hbal
        simp [makeCount, hk] at hbound
        have hstep : kProjStep k st (.make k2) = st := by
          simp [kProjStep, hk]
        simp only [List.foldl_cons, hstep]
        exact ih c st hst hc hbal hbound
    | release k2 =>
      by_cases hk : k2 = k
      · subst hk
        simp only [balancedFrom, if_pos rfl] at hbal
        by_cases hcpos : 0 < c
        · rw [if_pos hcpos] at hbal
          have hbound2 : makeCount k2 (KOp.release k2 :: t) = makeCount k2 t := rfl
          rw [hbound2] at hbound
          have hdec : add32 c (-1) = c - 1 := by
            rw [add32_eq (by omega) (by omega)]
            ring
          have hstep : kProjStep k2 st (.release k2) =
              (if 0 < c - 1 then some (c - 1) else none) := by
            subst hst
            rw [if_pos hcpos]
            by_cases hz : c - 1 ≤ 0
            · have hzn : ¬ (0 : Int) < c - 1 := by omega
              simp [kProjStep, hdec, hz, hzn]
            · have hzp : (0 : Int) < c - 1 := by omega
              simp [kProjStep, hdec, hz, hzp]
          simp only [List.foldl_cons, hstep]
          exact ih (c - 1) _ rfl (by omega) hbal (by omega)
        · rw [if_neg hcpos] at hbal
          exact absurd hbal (by simp)
      · simp only [balancedFrom, if_neg hk] at hbal
        have hbound2 : makeCount k (KOp.release k2 :: t) = makeCount k t := rfl
        rw [hbound2] at hbound
        have hstep : kProjStep k st (.release k2) = st := by
          simp [kProjStep, hk]
        simp only [List.foldl_cons, hstep]
        exact ih c st hst hc hbal hbound

theorem kproj_entries_pos (k2 : String) (ops : List KOp) (st : Option Int)
    (hst : ∀ c0, st = some c0 → 1 ≤ c0 ∧ c0 + (makeCount k2 ops : Int) ≤ 2 ^ 31 - 1)
    (hn : st = none → (makeCount k2 ops : Int) ≤ 2 ^ 31 - 1) :
    ∀ c, ops.foldl (kProjStep k2) st = some c → 1 ≤ c := by
  induction ops generalizing st with
  | nil =>
    intro c hc
    exact (hst c hc).1
  | cons op t ih =>
    intro c hc
    simp only [List.foldl_cons] at hc
    cases op with
    | make k3 =>
      by_cases hk : k3 = k2
      · subst hk
        have hcount : (makeCount k3 (KOp.make k3 :: t) : Int) = makeCount k3 t + 1 := by
          simp [makeCount]; ring
        rw [hcount] at hst hn
        cases hstv : st with
        | none =>
          have hb := hn hstv
          rw [hstv] at hc
          refine ih _ ?_ ?_ c hc
          · intro c0 hc0
            simp only [kProjStep, if_pos rfl] at hc0
            have : c0 = 1 := by
              have := Option.some.inj hc0
              omega
            constructor <;> omega
          · intro hcontra
            simp [kProjStep] at hcontra
        | some c1 =>
          obtain ⟨hc1, hb1⟩ := hst c1 hstv
          rw [hstv] at hc
          have hadd : add32 c1 1 = c1 + 1 := add32_eq (by omega) (by omega)
          refine ih _ ?_ ?_ c hc
          · intro c0 hc0
            simp only [kProjStep, if_pos rfl, hadd] at hc0
            have : c0 = c1 + 1 := (Option.some.inj hc0).symm
            constructor <;> omega
          · intro hcontra
            simp [kProjStep] at hcontra
      · have hcount : makeCount k2 (KOp.make k3 :: t) = makeCount k2 t := by
          simp [makeCount, hk]
        rw [hcount] at hst hn
        have hstep : kProjStep k2 st (.make k3) = st := by
          simp [kProjStep, hk]
        rw [hstep] at hc
        exact ih st hst hn c hc
    | release k3 =>
      by_cases hk : k3 = k2
      · subst hk
        have hcount : makeCount k3 (KOp.release k3 :: t) = makeCount k3 t := rfl
        rw [hcount] at hst hn
        cases hstv : st with
        | none =>
          rw [hstv] at hc
          have hstep : kProjStep k3 none (.release k3) = none := by
            simp [kProjStep]
          rw [hstep] at hc
          exact ih none (by intro c0 hcontra; cases hcontra) (fun _ => hn hstv) c hc
        | some c1 =>
          obtain ⟨hc1, hb1⟩ := hst c1 hstv
          rw [hstv] at hc
          have hadd : add32 c1 (-1) = c1 - 1 := by
            rw [add32_eq (by omega) (by omega)]; ring
          by_cases hz : add32 c1 (-1) ≤ 0
          · have hstep : kProjStep k3 (some c1) (.release k3) = none := by
              simp [kProjStep, hz]
            rw [hstep] at hc
            refine ih none (by intro c0 hcontra; cases hcontra) ?_ c hc
            intro _
            omega
          · have hstep : kProjStep k3 (some c1) (.release k3) = some (add32 c1 (-1)) := by
              simp [kProjStep, hz]
            rw [hadd] at hstep
            rw [hstep] at hc
            have hz2 : ¬ c1 - 1 ≤ 0 := by rw [hadd] at hz; exact hz
            refine ih _ ?_ ?_ c hc
            · intro c0 hc0
              have hval : c0 = c1 - 1 := (Option.some.inj hc0).symm
              constructor <;> omega
            · intro hcontra
              cases hcontra
      · have hcount : makeCount k2 (KOp.release k3 :: t) = makeCount k2 t := rfl
        rw [hcount] at hst hn
        have hstep : kProjStep k2 st (.release k3) = st := by
          simp [kProjStep, hk]
        rw [hstep] at hc
        exact ih st hst hn c hc

/-- C7: along any keyed-mutex call sequence that is balanced for a key k
with n Makes and n Releases of k (n at least one) and short enough that no
32-bit refcount wraps, the final map holds no entry for k; moreover no key
ever ends with a non-positive refcount — the map never retains an entry
whose reference count dropped to zero. -/
theorem kmutex_balanced_release (k : String) (ops : List KOp) (n : Nat)
    (hbal : balancedFrom k ops 0 = true)
    (hmk : makeCount k ops = n)
    (hrl : releaseCount k ops = n)
    (hn1 : 1 ≤ n)
    (hlen : (ops.length : Int) ≤ 2 ^ 31 - 1) :
    lookupA (kRun [] ops) k = none ∧
    (∀ k2 c, lookupA (kRun [] ops) k2 = some c → 1 ≤ c) := by
  constructor
  · rw [lookupA_kRun]
    exact kproj_balanced_none k ops 0 (lookupA [] k) (by simp [lookupA]) le_rfl hbal
      (by have := makeCount_le_length k ops; push_cast; omega)
  · intro k2 c hc
    rw [lookupA_kRun] at hc
    refine kproj_entries_pos k2 ops (lookupA [] k2) ?_ ?_ c hc
    · intro c0 hc0
      simp [lookupA] at hc0
    · intro _
      have := makeCount_le_length k2 ops
      push_cast
      omega

/-- Witness for C7: two balanced Make/Release pairs for key a, interleaved
with a balanced pair for key b, leave no entry for a and only positive
refcounts (here: none at all). -/
theorem kmutex_balanced_release_witness :
    lookupA (kRun [] [KOp.make "a", KOp.make "b", KOp.make "a", KOp.release "a",
      KOp.release "b", KOp.release "a"]) "a" = none :=
  (kmutex_balanced_release "a"
    [KOp.make "a", KOp.make "b", KOp.make "a", KOp.release "a",
     KOp.release "b", KOp.release "a"] 2
    (by decide) (by decide) (by decide) (by decide) (by decide)).1
